import Mathlib

/-!
Verification of the JUnit XML report generator (`internal/junitxml/report.go`).

Strings are modelled as `List Char`.  The Go standard-library helpers used by
the source (`strings.Split`, `strings.Join`, `strings.Replace` with single
character patterns, `path.Clean`, `path.Join`, `strings.TrimSpace`,
`strings.TrimPrefix`) are embedded below; the functions of the source file
follow them.
-/

namespace Junitxml

/-- Go `strings.Split(s, "/")`: splits on every `'/'`, keeping empty fields;
the result is never empty (`Split("", "/") = [""]`). -/
def splitOnSlash : List Char → List (List Char)
  | [] => [[]]
  | c :: rest =>
    match splitOnSlash rest with
    | [] => [[]]
    | s :: ss => if c = '/' then [] :: s :: ss else (c :: s) :: ss

/-- Go `strings.Join(elems, "/")`: the segments interleaved with `'/'`. -/
def joinSep : List (List Char) → List Char
  | [] => []
  | [s] => s
  | s :: ss => s ++ '/' :: joinSep ss

/-- Go `strings.Replace(s, old, new, -1)` where `old` and `new` are single
characters: a character-wise map (single characters cannot overlap). -/
def replaceChar (old new : Char) (s : List Char) : List Char :=
  s.map fun c => if c = old then new else c

/-- One step of Go `path.Clean`'s element processing: pushing one `'/'`
separated segment onto the cleaned stack.  Empty segments and `"."` are
dropped; `".."` pops the stack when a poppable segment is there (in Go's
buffer terms, when `out.w > dotdot`), is dropped at the root, and is kept
otherwise. -/
def cleanPush (rooted : Bool) (out : List (List Char)) (seg : List Char) :
    List (List Char) :=
  if seg = [] ∨ seg = ['.'] then out
  else if seg = ['.', '.'] then
    if out ≠ [] ∧ out.getLast? ≠ some ['.', '.'] then out.dropLast
    else if rooted then out
    else out ++ [seg]
  else out ++ [seg]

/-- Go `path.Clean`: segment-stack formulation of the `lazybuf` algorithm.
The invariant of Go's `dotdot` marker (only leading `".."` segments are
unpoppable, and none occur when rooted) is captured by the guard of
`cleanPush`. -/
def clean (s : List Char) : List Char :=
  match s with
  | [] => ['.']
  | c :: _ =>
    let rooted := c == '/'
    let out := (splitOnSlash s).foldl (cleanPush rooted) []
    let r := (if rooted then ['/'] else []) ++ joinSep out
    if r = [] then ['.'] else r

/-- Go `path.Join(elem...)`: skip to the first non-empty element, join the
rest with `'/'` and `Clean` the result; all-empty input gives `""`. -/
def pathJoin : List (List Char) → List Char
  | [] => []
  | e :: rest => if e = [] then pathJoin rest else clean (joinSep (e :: rest))

/-- Whitespace set of Go `strings.TrimSpace` restricted to the ASCII space
characters (the Unicode spaces never occur in the data at hand). -/
def goIsSpace (c : Char) : Bool :=
  c = ' ' || c = '\t' || c = '\n' || c = '\r' || c = '\x0b' || c = '\x0c'

/-- Go `strings.TrimSpace` (over the ASCII space set). -/
def trimSpace (s : List Char) : List Char :=
  (s.dropWhile goIsSpace).reverse.dropWhile goIsSpace |>.reverse

/-- Go `strings.TrimPrefix`. -/
def trimPrefix (s pre : List Char) : List Char :=
  if pre.isPrefixOf s then s.drop pre.length else s

/-! ## The execution model consumed by the generator

`testjson.Execution` / `testjson.Package` / `testjson.TestCase` are the
read-only input of the report generator (`exec.Packages()` gives the ordered
package names, `exec.Package(name)` the aggregate; the generator reads
`Total`, `Elapsed()`, `Failed`, `Skipped`, `Passed`, `TestMainFailed()` and
`Output(test)`).  Durations are in nanoseconds (Go `time.Duration`). -/

/-- `testjson.TestCase`: the fields read by this package. -/
structure TestCase where
  pkg : List Char
  test : List Char
  elapsed : Nat
  deriving DecidableEq

/-- `testjson.Package`: the per-package aggregate as read by this package.
`testMainFailed` models the `TestMainFailed()` flag, `output` the
`Output(test)` lookup (empty key = whole-package output). -/
structure Package where
  total : Nat
  failed : List TestCase
  skipped : List TestCase
  passed : List TestCase
  testMainFailed : Bool
  output : List Char → List Char
  elapsed : Nat

/-- `testjson.Execution`, reduced to what `generate` consumes: the ordered
package names (`exec.Packages()`) paired with their aggregates
(`exec.Package(name)`). -/
structure Execution where
  packages : List (List Char × Package)

/-- The process environment and external world read by the generator:
`GOTESTSUM_SUITE` (via `os.Getenv`, so `none` and `some ""` are
indistinguishable to the code), `GOVERSION` (via `os.LookupEnv`, so any set
value counts), and the outcome of running `go version` (`none` when the
invocation fails in any way). -/
structure Env where
  gotestsumSuite : Option (List Char)
  goversion : Option (List Char)
  goCmdOutput : Option (List Char)

/-- `os.Getenv`: an unset variable reads as the empty string. -/
def getenv (v : Option (List Char)) : List Char := v.getD []

/-! ## The report data model (`JUnit*` structures) -/

/-- `JUnitFailure`. -/
structure JUnitFailure where
  message : List Char
  typ : List Char
  contents : List Char
  deriving DecidableEq

/-- `JUnitSkipMessage`. -/
structure JUnitSkipMessage where
  message : List Char
  deriving DecidableEq

/-- `JUnitProperty`. -/
structure JUnitProperty where
  name : List Char
  value : List Char
  deriving DecidableEq

/-- `JUnitTestCase`. -/
structure JUnitTestCase where
  classname : List Char
  name : List Char
  time : List Char
  skipMessage : Option JUnitSkipMessage
  failure : Option JUnitFailure
  deriving DecidableEq

/-- `JUnitTestSuite`. -/
structure JUnitTestSuite where
  tests : Nat
  failures : Nat
  time : List Char
  name : List Char
  properties : List JUnitProperty
  testCases : List JUnitTestCase
  deriving DecidableEq

/-- `JUnitTestSuites`. -/
structure JUnitTestSuites where
  suites : List JUnitTestSuite
  deriving DecidableEq

/-! ## The functions of `report.go` -/

/-- `stripPathElements`. -/
def stripPathElements (pkgname : List Char) (strip : Nat) : List Char :=
  if strip = 0 then pkgname
  else
    let elems := splitOnSlash pkgname
    if strip > elems.length then []
    else pathJoin (elems.drop strip)

/-- `mungePackageName`: strip, prepend the prefix with `path.Join`, then
convert every `'.'` to `'-'` and every `'/'` to `'.'`. -/
def mungePackageName (n : List Char) (strip : Nat) (pfx : List Char) :
    List Char :=
  let n1 := stripPathElements n strip
  let n2 := pathJoin [pfx, n1]
  let n3 := replaceChar '.' '-' n2
  replaceChar '/' '.' n3

/-- Decimal rendering of a natural number (`Nat.toDigits 10`). -/
def natDigits (n : Nat) : List Char := Nat.toDigits 10 n

/-- `formatDurationAsSeconds`: `fmt.Sprintf("%f", d.Seconds())`, i.e. the
duration in seconds with six fractional digits.  The float formatting is
modelled by integer arithmetic on the nanosecond count (truncating to the
microsecond); no claim depends on the last-digit rounding of `%f`. -/
def formatDurationAsSeconds (d : Nat) : List Char :=
  let frac := natDigits (d % 1000000000 / 1000)
  natDigits (d / 1000000000) ++ '.' :: (List.replicate (6 - frac.length) '0' ++ frac)

/-- `packageProperties`. -/
def packageProperties (goVersion : List Char) : List JUnitProperty :=
  [{ name := "go.version".toList, value := goVersion }]

/-- `goVersion`: the `GOVERSION` variable verbatim when set (`os.LookupEnv`);
otherwise the trimmed output of `go version` with its `"go version "` prefix
removed, or `"unknown"` when the invocation fails (the error is only logged,
never propagated — the function is total). -/
def goVersion (env : Env) : List Char :=
  match env.goversion with
  | some version => version
  | none =>
    match env.goCmdOutput with
    | none => "unknown".toList
    | some out => trimPrefix (trimSpace out) ("go version ".toList)

/-- `newJUnitTestCase`. -/
def newJUnitTestCase (tc : TestCase) (strip : Nat) (pfx : List Char) :
    JUnitTestCase :=
  { classname := mungePackageName tc.pkg strip pfx
    name := tc.test
    time := formatDurationAsSeconds tc.elapsed
    skipMessage := none
    failure := none }

/-- The synthetic case built by `packageTestCases` when `TestMainFailed()`:
`newJUnitTestCase(testjson.TestCase{Test: "TestMain"}, ...)` (zero-valued
package name and elapsed time) with a failure holding the whole-package
output. -/
def testMainCase (pkg : Package) (strip : Nat) (pfx : List Char) :
    JUnitTestCase :=
  { newJUnitTestCase { pkg := [], test := "TestMain".toList, elapsed := 0 }
      strip pfx with
    failure := some { message := "Failed".toList, typ := [],
                      contents := pkg.output [] } }

/-- The case built for an element of `pkg.Failed`. -/
def failedCase (pkg : Package) (strip : Nat) (pfx : List Char)
    (tc : TestCase) : JUnitTestCase :=
  { newJUnitTestCase tc strip pfx with
    failure := some { message := "Failed".toList, typ := [],
                      contents := pkg.output tc.test } }

/-- The case built for an element of `pkg.Skipped`. -/
def skippedCase (pkg : Package) (strip : Nat) (pfx : List Char)
    (tc : TestCase) : JUnitTestCase :=
  { newJUnitTestCase tc strip pfx with
    skipMessage := some { message := pkg.output tc.test } }

/-- `packageTestCases`: starts from the empty slice, appends the synthetic
`TestMain` case when `pkg.TestMainFailed()`, then appends one case per
element of `Failed`, `Skipped` and `Passed`, in that order. -/
def packageTestCases (pkg : Package) (strip : Nat) (pfx : List Char) :
    List JUnitTestCase :=
  let cases : List JUnitTestCase := []
  let cases := if pkg.testMainFailed then cases ++ [testMainCase pkg strip pfx]
    else cases
  let cases := pkg.failed.foldl
    (fun cs tc => cs ++ [failedCase pkg strip pfx tc]) cases
  let cases := pkg.skipped.foldl
    (fun cs tc => cs ++ [skippedCase pkg strip pfx tc]) cases
  pkg.passed.foldl (fun cs tc => cs ++ [newJUnitTestCase tc strip pfx]) cases

/-- `generate`: one suite per package, in `exec.Packages()` order.  The suite
name is the `GOTESTSUM_SUITE` variable when it reads non-empty, otherwise the
munged package name; `Tests` copies `pkg.Total` and `Failures` is
`len(pkg.Failed)`. -/
def generate (exec : Execution) (strip : Nat) (pfx : List Char) (env : Env) :
    JUnitTestSuites :=
  let version := goVersion env
  let suites := exec.packages.foldl
    (fun acc q =>
      let pkgname := if getenv env.gotestsumSuite ≠ [] then
          getenv env.gotestsumSuite
        else mungePackageName q.1 strip pfx
      acc ++ [{ name := pkgname
                tests := q.2.total
                time := formatDurationAsSeconds q.2.elapsed
                properties := packageProperties version
                testCases := packageTestCases q.2 strip pfx
                failures := q.2.failed.length }]) []
  { suites := suites }

/-- `xml.Header`. -/
def xmlHeader : List Char :=
  "<?xml version=\"1.0\" encoding=\"UTF-8\"?>\n".toList

/-- `write`: marshal first (`xml.MarshalIndent` is external, so its outcome
is a parameter), returning its error before anything is written; then write
the XML header and the document.  `sink i = some e` means the `i`-th
`out.Write` call fails with error `e` (partial writes of a failing call are
abstracted away: a failing call contributes no chunk).  The result is the
list of chunks accepted by the sink and the returned error, if any. -/
def write (marshalResult : Except (List Char) (List Char))
    (sink : Nat → Option (List Char)) :
    List (List Char) × Option (List Char) :=
  match marshalResult with
  | .error e => ([], some e)
  | .ok doc =>
    match sink 0 with
    | some e => ([], some e)
    | none =>
      match sink 1 with
      | some e => ([xmlHeader], some e)
      | none => ([xmlHeader, doc], none)

/-- `errors.Wrap` as used by `Write`: a `nil` error stays `nil`, anything
else gains the context message. -/
def errorsWrap (err : Option (List Char)) (msg : List Char) :
    Option (List Char) :=
  err.map fun e => msg ++ ": ".toList ++ e

/-- `Write`: `errors.Wrap(write(out, generate(...)), "failed to write JUnit
XML")`, with the marshal outcome and sink behaviour as parameters. -/
def Write (marshalResult : Except (List Char) (List Char))
    (sink : Nat → Option (List Char)) :
    List (List Char) × Option (List Char) :=
  let r := write marshalResult sink
  (r.1, errorsWrap r.2 ("failed to write JUnit XML".toList))

/-! ## Definitions taken from the specification's wording

These follow the spec's description of the name normalizer, for comparison
with `mungePackageName` above. -/

/-- The spec's separator translation: every literal `'.'` replaced by `'-'`,
then every `'/'` replaced by `'.'`.  (These are also the last two steps of
`mungePackageName`.) -/
def sepTranslate (s : List Char) : List Char :=
  replaceChar '/' '.' (replaceChar '.' '-' s)

/-- The name normalizer as the spec words it: split the name on `'/'`, drop
the first `strip` segments (empty remainder when `strip` exceeds the segment
count), join the prefix and the remaining segments with `'/'`, then apply
the separator translation. -/
def specMungePackageName (n : List Char) (strip : Nat) (pfx : List Char) :
    List Char :=
  let segs := splitOnSlash n
  let rem := segs.drop strip
  let parts := (if pfx = [] then [] else [pfx]) ++ rem
  sepTranslate (joinSep parts)

/-- A path is clean when each of its `'/'`-separated segments is non-empty
and neither `"."` nor `".."` — exactly the inputs `path.Clean` leaves
untouched, hence on which the code agrees with the spec's naive algorithm. -/
def goodPath (s : List Char) : Prop :=
  ∀ seg ∈ splitOnSlash s, seg ≠ [] ∧ seg ≠ ['.'] ∧ seg ≠ ['.', '.']

instance (s : List Char) : Decidable (goodPath s) := by
  unfold goodPath; infer_instance

/-- The suite built by `generate` for one package. -/
def suiteFor (strip : Nat) (pfx : List Char) (env : Env)
    (q : List Char × Package) : JUnitTestSuite :=
  { name := if getenv env.gotestsumSuite ≠ [] then getenv env.gotestsumSuite
      else mungePackageName q.1 strip pfx
    tests := q.2.total
    time := formatDurationAsSeconds q.2.elapsed
    properties := packageProperties (goVersion env)
    testCases := packageTestCases q.2 strip pfx
    failures := q.2.failed.length }

/-! ## Concrete data used below -/

/-- An environment with no suite override, a pinned `GOVERSION` and no
`go` binary. -/
def sampleEnv : Env :=
  { gotestsumSuite := none, goversion := some ("go1.11".toList),
    goCmdOutput := none }

/-- A package whose test driver failed to run: no test was recorded. -/
def c1Pkg : Package :=
  { total := 0, failed := [], skipped := [], passed := [],
    testMainFailed := true, output := fun _ => "exit status 2".toList,
    elapsed := 0 }

def c1Exec : Execution := { packages := [("example.com/p".toList, c1Pkg)] }

/-- A package whose test driver failed to run, with the aggregate count
consistent with its (empty) partitions. -/
def c2Pkg : Package :=
  { total := 0, failed := [], skipped := [], passed := [],
    testMainFailed := true, output := fun _ => "exit status 1".toList,
    elapsed := 0 }

def c2Exec : Execution := { packages := [("example.com/q".toList, c2Pkg)] }

def sampleTC : TestCase :=
  { pkg := "example.com/w".toList, test := "TestOne".toList, elapsed := 0 }

def c2wPkg : Package :=
  { total := 1, failed := [sampleTC], skipped := [], passed := [],
    testMainFailed := false, output := fun _ => [], elapsed := 0 }

def c2wExec : Execution := { packages := [("example.com/w".toList, c2wPkg)] }

/-- A regular passing package for exercising the suite-name override. -/
def c6Pkg : Package :=
  { total := 1, failed := [], skipped := [],
    passed := [{ pkg := "github.com/x/y".toList, test := "TestA".toList,
                 elapsed := 0 }],
    testMainFailed := false, output := fun _ => [], elapsed := 0 }

def c6Exec : Execution := { packages := [("github.com/x/y".toList, c6Pkg)] }

def c6Env : Env :=
  { gotestsumSuite := some ("mysuite".toList),
    goversion := some ("go1.11".toList), goCmdOutput := none }

def c7aEnv : Env :=
  { gotestsumSuite := none, goversion := some ("devel +abc123".toList),
    goCmdOutput := none }

def c7bEnv : Env :=
  { gotestsumSuite := none, goversion := none, goCmdOutput := none }

/-! ## Validation of the embedding on concrete inputs -/

example : splitOnSlash ("a/b".toList) = [("a".toList), ("b".toList)] := by decide
example : splitOnSlash [] = [[]] := by decide
example : splitOnSlash ("/".toList) = [[], []] := by decide
example : clean ("a//b".toList) = "a/b".toList := by decide
example : clean ("a/b/".toList) = "a/b".toList := by decide
example : clean ("/../a".toList) = "/a".toList := by decide
example : clean ("a/../..".toList) = "..".toList := by decide
example : clean ("./".toList) = ".".toList := by decide
example : pathJoin [[], ("a".toList)] = "a".toList := by decide
example : pathJoin [("a".toList), []] = "a".toList := by decide
example : pathJoin [[], []] = [] := by decide
example : trimPrefix ("go version go1.11".toList) ("go version ".toList) =
    "go1.11".toList := by decide

example : mungePackageName ("github.com/org/pkg".toList) 0 [] =
    "github-com.org.pkg".toList := by decide
example : specMungePackageName ("github.com/org/pkg".toList) 0 [] =
    "github-com.org.pkg".toList := by decide
example : mungePackageName ("a//b".toList) 0 [] = "a.b".toList := by decide
example : specMungePackageName ("a//b".toList) 0 [] = "a..b".toList := by decide
example : mungePackageName ("a/b/".toList) 0 [] = "a.b".toList := by decide
example : sepTranslate ("a/b/".toList) = "a.b.".toList := by decide
example : mungePackageName ("a/b/c/d/e/f".toList) 3 [] = "d.e.f".toList := by
  decide
example : mungePackageName ("a/b/c/d/e/f".toList) 6 [] = [] := by decide
example : mungePackageName ("a/b/c/d/e/f".toList) 7 [] = [] := by decide
example : mungePackageName ("a/b/c/d/e/f".toList) 6 ("1/2/3".toList) =
    "1.2.3".toList := by decide
example : mungePackageName ("a/b/c/d/e/f".toList) 7 ("1/2/3".toList) =
    "1.2.3".toList := by decide
example : mungePackageName ("a/b/c/d/e/f".toList) 3 ("1/2/3".toList) =
    "1.2.3.d.e.f".toList := by decide
example : goodPath ("github.com/org/pkg".toList) := by decide
example : ¬ goodPath ("a//b".toList) := by decide

/-! ## Lemmas on the string model -/

theorem splitOnSlash_ne_nil (s : List Char) : splitOnSlash s ≠ [] := by
  cases s with
  | nil => simp [splitOnSlash]
  | cons c rest =>
    simp only [splitOnSlash]
    split
    · simp
    · split <;> simp

theorem joinSep_cons_cons (s b : List Char) (bs : List (List Char)) :
    joinSep (s :: b :: bs) = s ++ '/' :: joinSep (b :: bs) := rfl

theorem joinSep_cons (s : List Char) (rest : List (List Char))
    (h : rest ≠ []) : joinSep (s :: rest) = s ++ '/' :: joinSep rest := by
  cases rest with
  | nil => exact absurd rfl h
  | cons b bs => exact joinSep_cons_cons s b bs

theorem joinSep_head_ne_nil (s : List Char) (rest : List (List Char))
    (h : s ≠ []) : joinSep (s :: rest) ≠ [] := by
  cases rest with
  | nil => exact h
  | cons b bs => rw [joinSep_cons_cons]; simp

theorem splitOnSlash_cons_eq (c : Char) (rest a : List Char)
    (as : List (List Char)) (h : splitOnSlash rest = a :: as) :
    splitOnSlash (c :: rest) =
      if c = '/' then [] :: a :: as else (c :: a) :: as := by
  rw [splitOnSlash, h]

theorem joinSep_splitOnSlash (s : List Char) :
    joinSep (splitOnSlash s) = s := by
  induction s with
  | nil => rfl
  | cons c rest ih =>
    cases h : splitOnSlash rest with
    | nil => exact absurd h (splitOnSlash_ne_nil rest)
    | cons a as =>
      rw [h] at ih
      rw [splitOnSlash_cons_eq c rest a as h]
      by_cases hc : c = '/'
      · subst hc
        rw [if_pos rfl, joinSep_cons_cons]
        simp [ih]
      · rw [if_neg hc]
        cases as with
        | nil => rw [joinSep] at ih ⊢; rw [ih]
        | cons b bs =>
          rw [joinSep_cons_cons] at ih ⊢
          rw [← ih]
          rfl

theorem splitOnSlash_append_slash (a b : List Char) :
    splitOnSlash (a ++ '/' :: b) = splitOnSlash a ++ splitOnSlash b := by
  induction a with
  | nil =>
    cases hb : splitOnSlash b with
    | nil => exact absurd hb (splitOnSlash_ne_nil b)
    | cons t ts =>
      rw [List.nil_append, splitOnSlash_cons_eq '/' b t ts hb, if_pos rfl]
      rfl
  | cons c a' ih =>
    cases h : splitOnSlash a' with
    | nil => exact absurd h (splitOnSlash_ne_nil a')
    | cons s ss =>
      cases hb : splitOnSlash b with
      | nil => exact absurd hb (splitOnSlash_ne_nil b)
      | cons t ts =>
        have h2 : splitOnSlash (a' ++ '/' :: b) = s :: (ss ++ t :: ts) := by
          rw [ih, h, hb]; rfl
        rw [List.cons_append, splitOnSlash_cons_eq c (a' ++ '/' :: b) s
          (ss ++ t :: ts) h2, splitOnSlash_cons_eq c a' s ss h]
        by_cases hc : c = '/' <;> simp [hc]

theorem not_slash_of_mem_splitOnSlash (s : List Char) :
    ∀ seg ∈ splitOnSlash s, '/' ∉ seg := by
  induction s with
  | nil =>
    intro seg h
    simp only [splitOnSlash, List.mem_singleton] at h
    simp [h]
  | cons c rest ih =>
    intro seg hseg
    cases h : splitOnSlash rest with
    | nil => exact absurd h (splitOnSlash_ne_nil rest)
    | cons a as =>
      rw [splitOnSlash_cons_eq c rest a as h] at hseg
      rw [h] at ih
      by_cases hc : c = '/'
      · rw [if_pos hc] at hseg
        rcases List.mem_cons.mp hseg with h1 | h2
        · simp [h1]
        · exact ih seg h2
      · rw [if_neg hc] at hseg
        rcases List.mem_cons.mp hseg with h1 | h2
        · subst h1
          intro hmem
          rcases List.mem_cons.mp hmem with h3 | h4
          · exact hc h3.symm
          · exact ih a (List.mem_cons_self a as) h4
        · exact ih seg (List.mem_cons_of_mem a h2)

theorem splitOnSlash_of_not_slash (s : List Char) (h : '/' ∉ s) :
    splitOnSlash s = [s] := by
  induction s with
  | nil => rfl
  | cons c rest ih =>
    have hc : ¬ c = '/' := fun he => h (he ▸ List.mem_cons_self c rest)
    rw [splitOnSlash_cons_eq c rest rest []
      (ih fun hr => h (List.mem_cons_of_mem c hr)), if_neg hc]

theorem splitOnSlash_joinSep : ∀ segs : List (List Char), segs ≠ [] →
    (∀ seg ∈ segs, '/' ∉ seg) → splitOnSlash (joinSep segs) = segs := by
  intro segs
  induction segs with
  | nil => intro h _; exact absurd rfl h
  | cons s rest ih =>
    intro _ h
    cases rest with
    | nil => exact splitOnSlash_of_not_slash s (h s (List.mem_cons_self s []))
    | cons b bs =>
      rw [joinSep_cons_cons, splitOnSlash_append_slash,
        splitOnSlash_of_not_slash s (h s (List.mem_cons_self s (b :: bs))),
        ih (by simp) fun seg hs => h seg (List.mem_cons_of_mem s hs)]
      rfl

theorem cleanPush_nil (r : Bool) (out : List (List Char)) :
    cleanPush r out [] = out := by
  simp [cleanPush]

theorem foldl_cleanPush_good (r : Bool) :
    ∀ (segs out : List (List Char)),
    (∀ seg ∈ segs, seg ≠ [] ∧ seg ≠ ['.'] ∧ seg ≠ ['.', '.']) →
    segs.foldl (cleanPush r) out = out ++ segs := by
  intro segs
  induction segs with
  | nil => intro out _; simp
  | cons s rest ih =>
    intro out h
    obtain ⟨h1, h2, h3⟩ := h s (List.mem_cons_self s rest)
    rw [List.foldl_cons,
      ih _ fun seg hs => h seg (List.mem_cons_of_mem s hs)]
    unfold cleanPush
    rw [if_neg (by simp [h1, h2]), if_neg h3]
    simp

theorem joinSep_cons_head (c : Char) (s' : List Char)
    (rest : List (List Char)) : ∃ t, joinSep ((c :: s') :: rest) = c :: t := by
  cases rest with
  | nil => exact ⟨s', rfl⟩
  | cons b bs => exact ⟨s' ++ '/' :: joinSep (b :: bs), rfl⟩

theorem joinSep_append : ∀ a b : List (List Char), a ≠ [] → b ≠ [] →
    joinSep (a ++ b) = joinSep a ++ '/' :: joinSep b := by
  intro a
  induction a with
  | nil => intro b h _; exact absurd rfl h
  | cons s rest ih =>
    intro b _ hb
    cases rest with
    | nil =>
      rw [List.singleton_append, joinSep_cons s b hb, joinSep]
    | cons r rs =>
      rw [List.cons_append, joinSep_cons_cons,
        joinSep_cons s ((r :: rs) ++ b) (by simp), ih b (by simp) hb,
        List.append_assoc]
      simp

/-- `path.Clean` leaves a string alone when every segment is non-empty and
neither `"."` nor `".."` (in particular the string is not rooted). -/
theorem clean_of_good (segs : List (List Char)) (hne : segs ≠ [])
    (h : ∀ seg ∈ segs,
      seg ≠ [] ∧ seg ≠ ['.'] ∧ seg ≠ ['.', '.'] ∧ '/' ∉ seg) :
    clean (joinSep segs) = joinSep segs := by
  cases segs with
  | nil => exact absurd rfl hne
  | cons s rest =>
    obtain ⟨h1, -, -, h4⟩ := h s (List.mem_cons_self s rest)
    cases s with
    | nil => exact absurd rfl h1
    | cons c s' =>
      obtain ⟨t, ht⟩ := joinSep_cons_head c s' rest
      have hsplit : splitOnSlash (c :: t) = (c :: s') :: rest := by
        rw [← ht]
        exact splitOnSlash_joinSep _ (by simp) fun seg hs => (h seg hs).2.2.2
      have hc : (c == '/') = false := by
        simp only [beq_eq_false_iff_ne, ne_eq]
        exact fun he => h4 (he ▸ List.mem_cons_self c s')
      rw [ht]
      show clean (c :: t) = c :: t
      rw [clean]
      simp only [hsplit, hc, if_false, Bool.false_eq_true, List.nil_append]
      rw [foldl_cleanPush_good false ((c :: s') :: rest) []
        fun seg hs => ⟨(h seg hs).1, (h seg hs).2.1, (h seg hs).2.2.1⟩]
      rw [List.nil_append, ht]
      simp

theorem goodPath_ne_nil (s : List Char) (h : goodPath s) : s ≠ [] := by
  intro he
  subst he
  exact (h [] (by simp [splitOnSlash])).1 rfl

theorem clean_eq_self_of_good (s : List Char) (h : goodPath s) :
    clean s = s := by
  conv_lhs => rw [← joinSep_splitOnSlash s]
  rw [clean_of_good (splitOnSlash s) (splitOnSlash_ne_nil s)
    fun seg hs => ⟨(h seg hs).1, (h seg hs).2.1, (h seg hs).2.2,
      not_slash_of_mem_splitOnSlash s seg hs⟩]
  exact joinSep_splitOnSlash s

theorem clean_append_slash (p : List Char) (hp : p ≠ []) :
    clean (p ++ ['/']) = clean p := by
  cases p with
  | nil => exact absurd rfl hp
  | cons c p' =>
    have hsplit : splitOnSlash (c :: (p' ++ ['/'])) =
        splitOnSlash (c :: p') ++ [[]] := by
      have h := splitOnSlash_append_slash (c :: p') []
      simpa using h
    have hout : ∀ r : Bool,
        (splitOnSlash (c :: (p' ++ ['/']))).foldl (cleanPush r) [] =
        (splitOnSlash (c :: p')).foldl (cleanPush r) [] := by
      intro r
      rw [hsplit, List.foldl_append]
      simp [cleanPush_nil]
    show clean (c :: (p' ++ ['/'])) = clean (c :: p')
    rw [clean, clean]
    simp only [hout]

/-! ## Lemmas on `stripPathElements` and `mungePackageName` -/

theorem pathJoin_nil_left (st : List Char) :
    pathJoin [[], st] = if st = [] then [] else clean st := by
  rw [pathJoin, if_pos rfl, pathJoin]
  by_cases h : st = [] <;> simp [h, joinSep, pathJoin]

theorem pathJoin_pair_ne (pfx st : List Char) (h : pfx ≠ []) :
    pathJoin [pfx, st] = clean (pfx ++ '/' :: st) := by
  rw [pathJoin, if_neg h, joinSep_cons_cons]
  rfl

theorem goodPath_mem_drop (n : List Char) (strip : Nat) (hn : goodPath n) :
    ∀ seg ∈ (splitOnSlash n).drop strip,
      seg ≠ [] ∧ seg ≠ ['.'] ∧ seg ≠ ['.', '.'] ∧ '/' ∉ seg := by
  intro seg hs
  have hm := List.mem_of_mem_drop hs
  exact ⟨(hn seg hm).1, (hn seg hm).2.1, (hn seg hm).2.2,
    not_slash_of_mem_splitOnSlash n seg hm⟩

theorem pathJoin_eq_joinSep_of_good (rem : List (List Char))
    (h : ∀ seg ∈ rem, seg ≠ [] ∧ seg ≠ ['.'] ∧ seg ≠ ['.', '.'] ∧ '/' ∉ seg) :
    pathJoin rem = joinSep rem := by
  cases rem with
  | nil => rfl
  | cons e rest =>
    have he : e ≠ [] := (h e (List.mem_cons_self e rest)).1
    rw [pathJoin, if_neg he]
    exact clean_of_good (e :: rest) (by simp) h

theorem stripPathElements_eq (n : List Char) (strip : Nat) (hn : goodPath n) :
    stripPathElements n strip = joinSep ((splitOnSlash n).drop strip) := by
  by_cases h0 : strip = 0
  · subst h0
    rw [List.drop_zero, joinSep_splitOnSlash]
    rfl
  · rw [stripPathElements, if_neg h0]
    by_cases hgt : strip > (splitOnSlash n).length
    · rw [if_pos hgt, List.drop_eq_nil_of_le (le_of_lt hgt)]
      rfl
    · rw [if_neg hgt]
      exact pathJoin_eq_joinSep_of_good _ (goodPath_mem_drop n strip hn)

theorem joinSep_drop_ne_nil (n : List Char) (strip : Nat) (hn : goodPath n)
    (h : (splitOnSlash n).drop strip ≠ []) :
    joinSep ((splitOnSlash n).drop strip) ≠ [] := by
  cases hd : (splitOnSlash n).drop strip with
  | nil => exact absurd hd h
  | cons e rest =>
    exact joinSep_head_ne_nil e rest
      (goodPath_mem_drop n strip hn e (hd ▸ List.mem_cons_self e rest)).1

/-- On clean inputs the code's normalizer agrees with the spec's naive
split / drop / join algorithm. -/
theorem mungePackageName_eq_spec (n : List Char) (strip : Nat)
    (pfx : List Char) (hn : goodPath n) (hp : pfx = [] ∨ goodPath pfx) :
    mungePackageName n strip pfx = specMungePackageName n strip pfx := by
  have hst := stripPathElements_eq n strip hn
  unfold mungePackageName specMungePackageName sepTranslate
  simp only [hst]
  congr 1
  congr 1
  rcases hp with hp | hp
  · subst hp
    rw [if_pos rfl, List.nil_append, pathJoin_nil_left]
    by_cases hrem : (splitOnSlash n).drop strip = []
    · simp [hrem, joinSep]
    · rw [if_neg (joinSep_drop_ne_nil n strip hn hrem)]
      exact clean_of_good _ hrem (goodPath_mem_drop n strip hn)
  · have hpfx : pfx ≠ [] := goodPath_ne_nil pfx hp
    rw [if_neg hpfx, pathJoin_pair_ne _ _ hpfx]
    by_cases hrem : (splitOnSlash n).drop strip = []
    · rw [hrem]
      show clean (pfx ++ ['/']) = joinSep ([pfx] ++ [])
      rw [clean_append_slash pfx hpfx, clean_eq_self_of_good pfx hp]
      rfl
    · have h1 : joinSep (splitOnSlash pfx ++ (splitOnSlash n).drop strip) =
          pfx ++ '/' :: joinSep ((splitOnSlash n).drop strip) := by
        rw [joinSep_append _ _ (splitOnSlash_ne_nil pfx) hrem,
          joinSep_splitOnSlash]
      rw [← h1, clean_of_good _ (by simp [splitOnSlash_ne_nil pfx])
        (by
          intro seg hs
          rcases List.mem_append.mp hs with hs | hs
          · exact ⟨(hp seg hs).1, (hp seg hs).2.1, (hp seg hs).2.2,
              not_slash_of_mem_splitOnSlash pfx seg hs⟩
          · exact goodPath_mem_drop n strip hn seg hs), h1,
        List.singleton_append, joinSep_cons pfx _ hrem]

/-- With `strip = 0` and no prefix the normalizer is, on clean inputs, just
the separator translation. -/
theorem mungePackageName_zero_eq_sepTranslate (n : List Char)
    (hn : goodPath n) : mungePackageName n 0 [] = sepTranslate n := by
  have h : pathJoin [[], n] = n := by
    rw [pathJoin_nil_left, if_neg (goodPath_ne_nil n hn),
      clean_eq_self_of_good n hn]
  show replaceChar '/' '.' (replaceChar '.' '-'
    (pathJoin [[], stripPathElements n 0])) =
    replaceChar '/' '.' (replaceChar '.' '-' n)
  rw [show stripPathElements n 0 = n from rfl, h]

/-- Stripping at least as many elements as the name has leaves only the
(normalized) prefix. -/
theorem mungePackageName_strip_all (n pfx : List Char) (strip : Nat)
    (h : (splitOnSlash n).length ≤ strip) :
    mungePackageName n strip pfx = mungePackageName pfx 0 [] := by
  have h0 : strip ≠ 0 := by
    intro he
    subst he
    exact splitOnSlash_ne_nil n (List.eq_nil_of_length_eq_zero
      (Nat.le_antisymm h (Nat.zero_le _)))
  have hst : stripPathElements n strip = [] := by
    rw [stripPathElements, if_neg h0]
    by_cases hgt : strip > (splitOnSlash n).length
    · rw [if_pos hgt]
    · rw [if_neg hgt, List.drop_eq_nil_of_le h]
      rfl
  unfold mungePackageName
  simp only [hst]
  congr 1
  congr 1
  show pathJoin [pfx, []] = pathJoin [[], stripPathElements pfx 0]
  rw [show stripPathElements pfx 0 = pfx from rfl, pathJoin_nil_left]
  by_cases hpfx : pfx = []
  · simp [hpfx, pathJoin]
  · rw [pathJoin_pair_ne _ _ hpfx, if_neg hpfx]
    exact clean_append_slash pfx hpfx

/-! ## Lemmas on the generator -/

theorem foldl_append_eq_map {α β : Type} (f : α → β) :
    ∀ (l : List α) (init : List β),
    l.foldl (fun cs x => cs ++ [f x]) init = init ++ l.map f := by
  intro l
  induction l with
  | nil => intro init; simp
  | cons x xs ih => intro init; simp [ih]

/-- The case list of a suite is the synthetic `TestMain` case (when the
package's driver failed), then the failed, skipped and passed cases, each
group in the model's order. -/
theorem packageTestCases_parts (pkg : Package) (strip : Nat)
    (pfx : List Char) :
    packageTestCases pkg strip pfx =
      (if pkg.testMainFailed then [testMainCase pkg strip pfx] else []) ++
      pkg.failed.map (failedCase pkg strip pfx) ++
      pkg.skipped.map (skippedCase pkg strip pfx) ++
      pkg.passed.map fun tc => newJUnitTestCase tc strip pfx := by
  simp only [packageTestCases, foldl_append_eq_map, List.append_assoc,
    List.nil_append]

theorem packageTestCases_length (pkg : Package) (strip : Nat)
    (pfx : List Char) :
    (packageTestCases pkg strip pfx).length =
      (if pkg.testMainFailed then 1 else 0) +
      (pkg.failed.length + pkg.skipped.length + pkg.passed.length) := by
  rw [packageTestCases_parts]
  by_cases h : pkg.testMainFailed <;> simp [h] <;> omega

theorem generate_suites (exec : Execution) (strip : Nat) (pfx : List Char)
    (env : Env) :
    (generate exec strip pfx env).suites =
      exec.packages.map (suiteFor strip pfx env) := by
  simp only [generate, foldl_append_eq_map, List.nil_append]
  rfl

/-! ## The claims -/

/-- C1 (counterexample): on a package whose driver-failure flag is set and
whose failed partition is empty, the generated suite's failure count is `0`,
not `0 + 1` as the claim requires: `generate` sets `Failures` to
`len(pkg.Failed)` without accounting for the synthetic case. -/
theorem claim_C1_counterexample :
    c1Pkg.testMainFailed = true ∧
    (generate c1Exec 0 [] sampleEnv).suites.map (fun s => s.failures) ≠
      [c1Pkg.failed.length + 1] := by
  decide

/-- C1 (amended): for every package the generated suite's failure count
equals the size of the failed-case partition, regardless of the
driver-failure flag; the synthetic driver-failure case is emitted as a case
record but never counted in the `failures` attribute. -/
theorem claim_C1 (exec : Execution) (strip : Nat) (pfx : List Char)
    (env : Env) :
    (generate exec strip pfx env).suites.map (fun s => s.failures) =
      exec.packages.map fun q => q.2.failed.length := by
  rw [generate_suites, List.map_map]
  rfl

/-- C2 (counterexample): a package with the driver-failure flag set and an
aggregate total consistent with its partitions produces a suite whose
`tests` attribute (`0`) differs from its number of case records (`1`, the
synthetic driver-failure case): `generate` copies `pkg.Total`, which does
not count the synthetic case. -/
theorem claim_C2_counterexample :
    c2Pkg.total =
      c2Pkg.failed.length + c2Pkg.skipped.length + c2Pkg.passed.length ∧
    ¬ ∀ s ∈ (generate c2Exec 0 [] sampleEnv).suites,
        s.tests = s.testCases.length := by
  decide

/-- C2 (amended): when every package's aggregate total equals the number of
its recorded cases (the spec's reading of the external aggregate count;
`testjson` itself is outside the sources), the suite's `tests` attribute
equals the number of case records excluding the synthetic driver-failure
case — so the emitted records exceed the attribute by exactly one when the
driver-failure flag is set, and match it otherwise. -/
theorem claim_C2 (exec : Execution) (strip : Nat) (pfx : List Char)
    (env : Env)
    (h : ∀ q ∈ exec.packages, q.2.total =
      q.2.failed.length + q.2.skipped.length + q.2.passed.length) :
    (generate exec strip pfx env).suites.map
        (fun s => (s.tests, s.testCases.length)) =
      exec.packages.map fun q =>
        (q.2.total, q.2.total + if q.2.testMainFailed then 1 else 0) := by
  rw [generate_suites, List.map_map]
  refine List.map_congr_left fun q hq => ?_
  show (q.2.total, (packageTestCases q.2 strip pfx).length) = _
  rw [packageTestCases_length, h q hq]
  by_cases hf : q.2.testMainFailed
  · simp [hf]
    omega
  · simp [hf]

theorem claim_C2_witness :
    (∀ q ∈ c2wExec.packages, q.2.total =
      q.2.failed.length + q.2.skipped.length + q.2.passed.length) ∧
    (generate c2wExec 0 [] sampleEnv).suites.map
        (fun s => (s.tests, s.testCases.length)) =
      c2wExec.packages.map fun q =>
        (q.2.total, q.2.total + if q.2.testMainFailed then 1 else 0) :=
  ⟨by decide, claim_C2 c2wExec 0 [] sampleEnv (by decide)⟩

/-- C3 (counterexample): at name `"a//b"`, strip `0` and no prefix, the
normalizer yields `"a.b"` (the `path.Join` inside it cleans the doubled
separator) while the claimed split/drop/join algorithm yields `"a..b"`. -/
theorem claim_C3_counterexample :
    mungePackageName ("a//b".toList) 0 [] = "a.b".toList ∧
    specMungePackageName ("a//b".toList) 0 [] = "a..b".toList ∧
    mungePackageName ("a//b".toList) 0 [] ≠
      specMungePackageName ("a//b".toList) 0 [] := by
  decide

/-- C3 (amended): the normalizer returns the result of the claimed
split/drop/join/translate algorithm whenever the name is a clean path and
the prefix is empty or a clean path (every `'/'`-separated segment
non-empty and neither `"."` nor `".."`); on other inputs the `path.Join`
inside the code first cleans the joined path.  The concrete case
`"github.com/org/pkg"` with strip `0` and empty prefix yields
`"github-com.org.pkg"`. -/
theorem claim_C3 (n : List Char) (strip : Nat) (pfx : List Char)
    (hn : goodPath n) (hp : pfx = [] ∨ goodPath pfx) :
    mungePackageName n strip pfx = specMungePackageName n strip pfx ∧
    mungePackageName ("github.com/org/pkg".toList) 0 [] =
      "github-com.org.pkg".toList :=
  ⟨mungePackageName_eq_spec n strip pfx hn hp, by decide⟩

theorem claim_C3_witness :
    goodPath ("github.com/org/pkg".toList) ∧
    mungePackageName ("github.com/org/pkg".toList) 0 [] =
      specMungePackageName ("github.com/org/pkg".toList) 0 [] :=
  ⟨by decide,
    (claim_C3 ("github.com/org/pkg".toList) 0 [] (by decide) (Or.inl rfl)).1⟩

/-- C4 (counterexample): at input `"a/b/"` the normalizer with strip `0`
and no prefix yields `"a.b"` — the trailing separator is removed by the
path cleaning inside `path.Join` — while the pure separator translation of
the input is `"a.b."`. -/
theorem claim_C4_counterexample :
    mungePackageName ("a/b/".toList) 0 [] = "a.b".toList ∧
    sepTranslate ("a/b/".toList) = "a.b.".toList ∧
    mungePackageName ("a/b/".toList) 0 [] ≠ sepTranslate ("a/b/".toList) := by
  decide

/-- C4 (amended): with strip `0` and empty prefix the normalizer is the
input unchanged except for the separator translation, provided the input is
a clean path (each `'/'`-separated segment non-empty and neither `"."` nor
`".."`); otherwise the path cleaning inside `path.Join` alters the name
first. -/
theorem claim_C4 (n : List Char) (hn : goodPath n) :
    mungePackageName n 0 [] = sepTranslate n :=
  mungePackageName_zero_eq_sepTranslate n hn

theorem claim_C4_witness :
    goodPath ("github.com/foo/bar".toList) ∧
    mungePackageName ("github.com/foo/bar".toList) 0 [] =
      sepTranslate ("github.com/foo/bar".toList) :=
  ⟨by decide, claim_C4 ("github.com/foo/bar".toList) (by decide)⟩

/-- C5: when the strip count is at least the number of `'/'`-separated
segments of the name, the normalizer returns the normalized prefix alone —
in particular the empty string when the prefix is empty — and, being a
total function, never signals an error.  Concretely, `"a/b/c/d/e/f"` with
strip `6` or `7` yields `""`, and with prefix `"1/2/3"` yields the
translated prefix `"1.2.3"`. -/
theorem claim_C5 :
    (∀ (n pfx : List Char) (strip : Nat),
      (splitOnSlash n).length ≤ strip →
      mungePackageName n strip pfx = mungePackageName pfx 0 []) ∧
    mungePackageName ("a/b/c/d/e/f".toList) 6 [] = [] ∧
    mungePackageName ("a/b/c/d/e/f".toList) 7 [] = [] ∧
    mungePackageName ("a/b/c/d/e/f".toList) 6 ("1/2/3".toList) =
      "1.2.3".toList ∧
    mungePackageName ("a/b/c/d/e/f".toList) 7 ("1/2/3".toList) =
      "1.2.3".toList :=
  ⟨fun n pfx strip h => mungePackageName_strip_all n pfx strip h,
    by decide, by decide, by decide, by decide⟩

theorem claim_C5_witness :
    (splitOnSlash ("x/y".toList)).length ≤ 5 ∧
    mungePackageName ("x/y".toList) 5 ("pre".toList) =
      mungePackageName ("pre".toList) 0 [] :=
  ⟨by decide, claim_C5.1 ("x/y".toList) ("pre".toList) 5 (by decide)⟩

/-- C6: when the `GOTESTSUM_SUITE` variable is set to a non-empty value,
every generated suite's name is that value verbatim, whatever the
strip/prefix settings; when it is unset or empty (indistinguishable through
`os.Getenv`), every suite's name is the normalizer applied to the package
name. -/
theorem claim_C6 (exec : Execution) (strip : Nat) (pfx : List Char)
    (env : Env) :
    (∀ v, env.gotestsumSuite = some v → v ≠ [] →
      (generate exec strip pfx env).suites.map (fun s => s.name) =
        exec.packages.map fun _ => v) ∧
    ((env.gotestsumSuite = none ∨ env.gotestsumSuite = some []) →
      (generate exec strip pfx env).suites.map (fun s => s.name) =
        exec.packages.map fun q => mungePackageName q.1 strip pfx) := by
  constructor
  · intro v hv hne
    rw [generate_suites, List.map_map]
    exact List.map_congr_left fun q hq => by
      simp [suiteFor, getenv, hv, hne]
  · intro h
    rw [generate_suites, List.map_map]
    refine List.map_congr_left fun q hq => ?_
    rcases h with h | h <;> simp [suiteFor, getenv, h]

theorem claim_C6_witness :
    c6Env.gotestsumSuite = some ("mysuite".toList) ∧
    ("mysuite".toList ≠ []) ∧
    (generate c6Exec 0 [] c6Env).suites.map (fun s => s.name) =
      [("mysuite".toList)] :=
  ⟨rfl, by decide,
    ((claim_C6 c6Exec 0 [] c6Env).1 ("mysuite".toList) rfl
      (by decide)).trans (by decide)⟩

/-- C7: the version resolver returns the `GOVERSION` variable verbatim
whenever it is set (to any value, via `os.LookupEnv`); when it is unset and
the `go version` invocation fails, it returns the sentinel `"unknown"`.  It
is a total function of its inputs: no error is propagated. -/
theorem claim_C7 (env : Env) :
    (∀ v, env.goversion = some v → goVersion env = v) ∧
    (env.goversion = none → env.goCmdOutput = none →
      goVersion env = "unknown".toList) := by
  constructor
  · intro v hv
    simp [goVersion, hv]
  · intro h1 h2
    simp [goVersion, h1, h2]

theorem claim_C7_witness :
    c7aEnv.goversion = some ("devel +abc123".toList) ∧
    goVersion c7aEnv = "devel +abc123".toList ∧
    c7bEnv.goversion = none ∧ c7bEnv.goCmdOutput = none ∧
    goVersion c7bEnv = "unknown".toList :=
  ⟨rfl, (claim_C7 c7aEnv).1 _ rfl, rfl, rfl, (claim_C7 c7bEnv).2 rfl rfl⟩

/-- C8: the case records of a suite are, in order, the synthetic
driver-failure case (when the flag is set), then the failed, the skipped
and the passed cases, each group in the order of the corresponding
partition of the execution model (`List.map` preserves order). -/
theorem claim_C8 (pkg : Package) (strip : Nat) (pfx : List Char) :
    packageTestCases pkg strip pfx =
      (if pkg.testMainFailed then [testMainCase pkg strip pfx] else []) ++
      pkg.failed.map (failedCase pkg strip pfx) ++
      pkg.skipped.map (skippedCase pkg strip pfx) ++
      pkg.passed.map (fun tc => newJUnitTestCase tc strip pfx) :=
  packageTestCases_parts pkg strip pfx

/-- C9: changing the `GOTESTSUM_SUITE` variable changes nothing in the
generated suites but their `name` attribute — tests, failures, time,
properties and the case records are untouched — and every case record's
classname is the normalizer applied to that case's own package name (the
empty name for the synthetic driver-failure case), with the given
strip/prefix, whatever the variable holds. -/
theorem claim_C9 (exec : Execution) (strip : Nat) (pfx : List Char)
    (env : Env) (v : Option (List Char)) :
    ((generate exec strip pfx { env with gotestsumSuite := v }).suites.map
        (fun s => (s.tests, s.failures, s.time, s.properties,
          s.testCases)) =
      (generate exec strip pfx env).suites.map
        (fun s => (s.tests, s.failures, s.time, s.properties,
          s.testCases))) ∧
    ((generate exec strip pfx { env with gotestsumSuite := v }).suites.map
        (fun s => s.testCases.map fun c => c.classname) =
      exec.packages.map fun q =>
        ((if q.2.testMainFailed then [([] : List Char)] else []) ++
          (q.2.failed ++ q.2.skipped ++ q.2.passed).map fun tc =>
            tc.pkg).map
          fun pn => mungePackageName pn strip pfx) := by
  constructor
  · rw [generate_suites, generate_suites, List.map_map, List.map_map]
    rfl
  · rw [generate_suites, List.map_map]
    refine List.map_congr_left fun q hq => ?_
    show (packageTestCases q.2 strip pfx).map (fun c => c.classname) = _
    rw [packageTestCases_parts]
    by_cases h : q.2.testMainFailed
    all_goals
      simp only [h, if_true, if_false, List.map_append, List.map_map,
        List.map_cons, List.map_nil, List.append_assoc]
      rfl

/-- C10: when XML marshaling fails, `write` returns the error with nothing
written to the sink — the XML declaration is only written after marshaling
has succeeded, so on the success path the declaration is the first chunk
the sink ever receives. -/
theorem claim_C10 (e : List Char) (sink : Nat → Option (List Char)) :
    write (Except.error e) sink = ([], some e) ∧
    ∀ doc, (write (Except.ok doc) sink).1 = [] ∨
      (write (Except.ok doc) sink).1.head? = some xmlHeader := by
  constructor
  · rfl
  · intro doc
    cases h0 : sink 0 with
    | some e0 =>
      left
      simp [write, h0]
    | none =>
      cases h1 : sink 1 with
      | some e1 =>
        right
        simp [write, h0, h1]
      | none =>
        right
        simp [write, h0, h1]

end Junitxml
